import Mathlib

/-!
Verification development for the raptor search engine
(source: src/src/raptor_search.cpp).

The C++ source is shallowly embedded below.  Machine integers (size_t
minimiser counts, bin indices, thread counts) are modelled as Nat; the
uint8_t counters of the counting vectors wrap modulo 256, written as an
explicit `% 256`; the doubles `threshold` and `tau` are modelled as
rationals; `static_cast<size_t>` of a nonnegative double is the floor.
The interleaved Bloom filter is abstracted by its observable contract
(spec section 3): a bin count and a membership bit per (hash, bin); a
counting agent's `bulk_count` returns, per bin, the number of input
hashes whose membership bit is set, in an 8-bit counter.  The minimiser
extractor (seqan3 `views::minimiser_hash`, external to the source) is a
parameter `extract` mapping a sequence to its list of 64-bit hashes.
-/

/-- Query parameterisation, mirroring `search_arguments` (shared.hpp) as
used by raptor_search.cpp.  Field order: kmer_size, window_size,
pattern_size, errors, tau, threshold, treshold_was_set, threads,
parts, compressed, write_time.  The misspelling `treshold_was_set`
is the source's own field name. -/
structure SearchArguments where
  kmer_size : Nat
  window_size : Nat
  pattern_size : Nat
  errors : Nat
  tau : ℚ
  threshold : ℚ
  treshold_was_set : Bool
  threads : Nat
  parts : Nat
  compressed : Bool
  write_time : Bool
deriving DecidableEq

/-- Source line 117/268: `kmers_per_window = window_size - kmer_size + 1`. -/
def kmers_per_window (a : SearchArguments) : Nat :=
  a.window_size - a.kmer_size + 1

/-- Source line 118/269: `kmers_per_pattern = pattern_size - kmer_size + 1`. -/
def kmers_per_pattern (a : SearchArguments) : Nat :=
  a.pattern_size - a.kmer_size + 1

/-- Source lines 119-120/270-271: `min_number_of_minimisers` is
`kmers_per_pattern` when `kmers_per_window == 1`, else
`std::ceil(kmers_per_pattern / (double) kmers_per_window)`. -/
def min_number_of_minimisers (a : SearchArguments) : Nat :=
  if kmers_per_window a = 1 then kmers_per_pattern a
  else Nat.ceil ((kmers_per_pattern a : ℚ) / (kmers_per_window a : ℚ))

/-- Source lines 121-123/272-274: the k-mer lemma threshold, guarded
against unsigned underflow exactly as in the source. -/
def kmer_lemma (a : SearchArguments) : Nat :=
  if a.pattern_size + 1 > (a.errors + 1) * a.kmer_size then
    a.pattern_size + 1 - (a.errors + 1) * a.kmer_size
  else 0

/-- Source line 124/275: `max_number_of_minimisers = pattern_size - window_size + 1`. -/
def max_number_of_minimisers (a : SearchArguments) : Nat :=
  a.pattern_size - a.window_size + 1

/-- Source lines 199-206/300-307: the per-record threshold, from the
observed minimiser count.  `static_cast<size_t>(minimiser_count * threshold)`
is the floor of the (nonnegative) product; the table branch clamps the
offset and adds 2. -/
def threshold_select (a : SearchArguments) (precomp_thresholds : List Nat)
    (minimiser_count : Nat) : Nat :=
  if a.treshold_was_set then
    (Int.floor ((minimiser_count : ℚ) * a.threshold)).toNat
  else if kmers_per_window a = 1 then
    kmer_lemma a
  else
    precomp_thresholds.getD
      (min (if minimiser_count < min_number_of_minimisers a then 0
            else minimiser_count - min_number_of_minimisers a)
        (max_number_of_minimisers a - min_number_of_minimisers a)) 0 + 2

/-- The interleaved Bloom filter, abstracted to its observable contract:
`bins` is `bin_count()`, `mem h b` the membership bit of hash `h` in bin `b`. -/
structure IBF where
  bins : Nat
  mem : Nat → Nat → Bool

/-- The counting agent's `bulk_count`: per bin, the number of input hashes
whose membership bit is set, held in a wrapping 8-bit counter. -/
def bulk_count (ibf : IBF) (hashes : List Nat) : List Nat :=
  (List.range ibf.bins).map (fun b => (hashes.countP (fun h => ibf.mem h b)) % 256)

/-- `counting_vector::operator+=`: element-wise 8-bit addition. -/
def addCounts (a b : List Nat) : List Nat :=
  List.zipWith (fun x y => (x + y) % 256) a b

/-- Source lines 208-216/309-317: the loop appending `to_string(current_bin)`
and a comma for every bin whose count reaches the threshold, walking the
count vector in index order starting from bin `b`. -/
def bins_string (t : Nat) : List Nat → Nat → String
  | [], _ => ""
  | c :: cs, b => (if t ≤ c then Nat.repr b ++ "," else "") ++ bins_string t cs (b + 1)

/-- One output line: the id, a tab, the hit bins, a newline
(source lines 190-217/292-318). -/
def result_line (id : String) (counts : List Nat) (t : Nat) : String :=
  id ++ "\t" ++ bins_string t counts 0 ++ "\n"

/-- The bins reported for a count vector at a threshold: the indices,
in ascending order, whose count reaches the threshold. -/
def hitBins (counts : List Nat) (t : Nat) : List Nat :=
  (List.range counts.length).filter (fun b => decide (t ≤ counts.getD b 0))

/-- Source line 86: `records_per_thread = num_records / threads`. -/
def records_per_thread (num_records threads : Nat) : Nat :=
  num_records / threads

/-- Source lines 88-93: the half-open ranges handed to the spawned tasks;
task `i` gets `[records_per_thread * i, records_per_thread * (i+1))` and
the final task's end is `num_records`. -/
def ranges (num_records threads : Nat) : List (Nat × Nat) :=
  (List.range threads).map (fun i =>
    (records_per_thread num_records threads * i,
     if i = threads - 1 then num_records
     else records_per_thread num_records threads * (i + 1)))

/-- Source lines 82-100: `do_parallel` spawns one task per range and waits
for all of them; functionally, the list of all task results, one per range. -/
def do_parallel {α : Type} (worker : Nat → Nat → α) (num_records threads : Nat) :
    List α :=
  (ranges num_records threads).map (fun r => worker r.1 r.2)

/-- Source lines 132/323: the chunk size `(1ULL << 20) * 10`. -/
def chunk_size : Nat := (2 ^ 20) * 10

/-- `seqan3::views::chunk c`: split a list into consecutive chunks of `c`
elements, the last chunk possibly smaller.  (`c = 0` never occurs; the
guard is for termination only.) -/
def chunksOf {α : Type} (c : Nat) : List α → List (List α)
  | [] => []
  | x :: xs =>
    if c = 0 then []
    else (x :: xs).take c :: chunksOf c ((x :: xs).drop c)
termination_by l => l.length
decreasing_by
  simp only [List.length_drop, List.length_cons]
  omega

section Pipeline

variable {σ : Type}

/-- The body of `worker` (single-part mode, source lines 288-320) for one
record: extract the minimisers, bulk-count them, pick the threshold from
the minimiser count, and render the line. -/
def record_line (a : SearchArguments) (ibf : IBF) (precomp : List Nat)
    (extract : σ → List Nat) (r : String × σ) : String :=
  let minimiser := extract r.2
  result_line r.1 (bulk_count ibf minimiser)
    (threshold_select a precomp minimiser.length)

/-- One `worker` task over its record slice `[s, e)`
(`records | seqan3::views::slice(start, end)`). -/
def worker_task (a : SearchArguments) (ibf : IBF) (precomp : List Nat)
    (extract : σ → List Nat) (records : List (String × σ)) (s e : Nat) :
    List String :=
  ((records.drop s).take (e - s)).map (record_line a ibf precomp extract)

/-- All lines produced for one chunk in single-part mode: `do_parallel`
over the task ranges. -/
def chunk_lines (a : SearchArguments) (ibf : IBF) (precomp : List Nat)
    (extract : σ → List Nat) (records : List (String × σ)) : List String :=
  (ranges records.length a.threads).flatMap
    (fun r => worker_task a ibf precomp extract records r.1 r.2)

/-- The finished results file in single-part mode: the writer is opened
once before the chunk loop (source line 266), so the chunks' lines
accumulate. -/
def run_program_single_file (a : SearchArguments) (ibf : IBF) (precomp : List Nat)
    (extract : σ → List Nat) (records : List (String × σ)) : List String :=
  (chunksOf chunk_size records).flatMap (chunk_lines a ibf precomp extract)

/-- One pass of `count_task` over a whole chunk (multi-part mode, source
lines 145-161): record `i` accumulates the bulk count of the currently
loaded part into `counts[i]`. -/
def count_chunk (extract : σ → List Nat) (ibf : IBF)
    (records : List (String × σ)) (counts : List (List Nat)) :
    List (List Nat) :=
  List.zipWith (fun r c => addCounts c (bulk_count ibf (extract r.2))) records counts

/-- The body of `output_task` (source lines 186-219) for one record paired
with its accumulator: re-extract the minimisers, add the final part's bulk
count into the accumulator, and render the line. -/
def output_record (a : SearchArguments) (precomp : List Nat) (ibf : IBF)
    (extract : σ → List Nat) (rc : (String × σ) × List Nat) : String :=
  let minimiser := extract rc.1.2
  result_line rc.1.1 (addCounts rc.2 (bulk_count ibf minimiser))
    (threshold_select a precomp minimiser.length)

/-- The chunk's accumulators after the counting passes (source lines
142-170): zero vectors of width `bin_count()` of part 0, then one
`count_task` pass per part `0 .. parts-2`. -/
def chunk_accumulators (a : SearchArguments) (ibfOf : Nat → IBF)
    (extract : σ → List Nat) (records : List (String × σ)) :
    List (List Nat) :=
  (List.range (a.parts - 1)).foldl
    (fun cs i => count_chunk extract (ibfOf i) records cs)
    (records.map (fun _ => List.replicate (ibfOf 0).bins 0))

/-- All lines produced for one chunk in multi-part mode (source
lines 142-222): the accumulator passes, then `output_task` with the
final part over the task ranges. -/
def multi_chunk_lines (a : SearchArguments) (ibfOf : Nat → IBF) (precomp : List Nat)
    (extract : σ → List Nat) (records : List (String × σ)) : List String :=
  (ranges records.length a.threads).flatMap (fun r =>
    (((records.zip (chunk_accumulators a ibfOf extract records)).drop r.1).take
      (r.2 - r.1)).map
      (output_record a precomp (ibfOf (a.parts - 1)) extract))

/-- The finished results file in multi-part mode.  The writer
`sync_out synced_out{arguments.out_file}` is constructed INSIDE the chunk
loop (source line 173); `std::ofstream` opens the file truncating, so each
chunk replaces the file contents and only the final chunk's lines remain. -/
def run_program_multiple_file (a : SearchArguments) (ibfOf : Nat → IBF)
    (precomp : List Nat) (extract : σ → List Nat)
    (records : List (String × σ)) : List String :=
  ((chunksOf chunk_size records).map (multi_chunk_lines a ibfOf precomp extract)).getLastD []

/-- The (id, bin) pairs a record contributes, read off the same counts and
threshold that render its line. -/
def record_pairs (a : SearchArguments) (ibf : IBF) (precomp : List Nat)
    (extract : σ → List Nat) (r : String × σ) : List (String × Nat) :=
  let minimiser := extract r.2
  (hitBins (bulk_count ibf minimiser)
    (threshold_select a precomp minimiser.length)).map (fun b => (r.1, b))

/-- The (id, bin) pairs of one single-part chunk, with the same
range/slice structure as `chunk_lines`. -/
def single_chunk_pairs (a : SearchArguments) (ibf : IBF) (precomp : List Nat)
    (extract : σ → List Nat) (records : List (String × σ)) :
    List (String × Nat) :=
  (ranges records.length a.threads).flatMap (fun r =>
    ((records.drop r.1).take (r.2 - r.1)).flatMap (record_pairs a ibf precomp extract))

/-- The (id, bin) pairs in the finished single-part results file. -/
def run_single_pairs (a : SearchArguments) (ibf : IBF) (precomp : List Nat)
    (extract : σ → List Nat) (records : List (String × σ)) :
    List (String × Nat) :=
  (chunksOf chunk_size records).flatMap (single_chunk_pairs a ibf precomp extract)

/-- The (id, bin) pairs a record with accumulator contributes in
`output_task`. -/
def output_record_pairs (a : SearchArguments) (precomp : List Nat) (ibf : IBF)
    (extract : σ → List Nat) (rc : (String × σ) × List Nat) :
    List (String × Nat) :=
  let minimiser := extract rc.1.2
  (hitBins (addCounts rc.2 (bulk_count ibf minimiser))
    (threshold_select a precomp minimiser.length)).map (fun b => (rc.1.1, b))

/-- The (id, bin) pairs of one multi-part chunk, with the same structure
as `multi_chunk_lines`. -/
def multi_chunk_pairs (a : SearchArguments) (ibfOf : Nat → IBF) (precomp : List Nat)
    (extract : σ → List Nat) (records : List (String × σ)) :
    List (String × Nat) :=
  (ranges records.length a.threads).flatMap (fun r =>
    (((records.zip (chunk_accumulators a ibfOf extract records)).drop r.1).take
      (r.2 - r.1)).flatMap
      (output_record_pairs a precomp (ibfOf (a.parts - 1)) extract))

/-- The (id, bin) pairs in the finished multi-part results file (per-chunk
truncation included, as in `run_program_multiple_file`). -/
def run_multiple_pairs (a : SearchArguments) (ibfOf : Nat → IBF)
    (precomp : List Nat) (extract : σ → List Nat)
    (records : List (String × σ)) : List (String × Nat) :=
  ((chunksOf chunk_size records).map (multi_chunk_pairs a ibfOf precomp extract)).getLastD []

end Pipeline

/-- Outcome of `compute_simple_model` (source lines 50-66): the returned
table, the cache contents afterwards, and which actions were taken. -/
structure ModelOutcome where
  thresholds : List Nat
  cache_out : Option (List Nat)
  read_attempted : Bool
  recomputed : Bool
  wrote_back : Bool
deriving DecidableEq

/-- Source lines 50-66.  `precompute_threshold` (minimiser_model.hpp,
external to the source) is a pure function parameter; the on-disk cache is
`Option (List Nat)`, `do_cerealisation_in` succeeding exactly when it is
present.  The source's condition is the SHORT-CIRCUIT
`!arguments.threshold && !do_cerealisation_in(...)`: the cache read is
attempted exactly when the threshold VALUE is zero, regardless of
`treshold_was_set`. -/
def compute_simple_model
    (precompute_threshold : Nat → Nat → Nat → Nat → ℚ → List Nat)
    (a : SearchArguments) (cache : Option (List Nat)) : ModelOutcome :=
  if a.threshold = 0 then
    match cache with
    | some t => ⟨t, some t, true, false, false⟩
    | none =>
      let t := precompute_threshold a.pattern_size a.window_size a.kmer_size
        a.errors a.tau
      ⟨t, some t, true, true, true⟩
  else ⟨[], cache, false, false, false⟩

/-- Error kinds of the search (spec section 7); only the one the claims
need. -/
inductive SearchError where
  | parameterError
deriving DecidableEq

/-- Modelled from the spec: parameter validation of the query
parameterisation Q against the section 3 invariants (`k <= 32`,
`w - k + 1 >= 1`, `p - w + 1 >= 1`, `parts >= 1`).  The validation code
itself lives in the CLI layer, outside src/. -/
def validate_arguments (a : SearchArguments) : Bool :=
  decide (a.kmer_size ≤ 32) && decide (a.kmer_size ≤ a.window_size) &&
    decide (a.window_size ≤ a.pattern_size) && decide (1 ≤ a.parts)

/-- Modelled from the spec: the checked entry point — validation happens
before any I/O, on failure nothing is written; on success `raptor_search`
(source lines 350-368) dispatches on `parts`. -/
def raptor_search_checked {σ : Type} (a : SearchArguments) (ibfOf : Nat → IBF)
    (precomp : List Nat) (extract : σ → List Nat)
    (records : List (String × σ)) : Except SearchError (List String) :=
  if validate_arguments a then
    Except.ok (if a.parts = 1 then
        run_program_single_file a (ibfOf 0) precomp extract records
      else
        run_program_multiple_file a ibfOf precomp extract records)
  else Except.error SearchError.parameterError

/-! ### Generic list helpers -/

theorem list_flatMap_congr {α β : Type} {l : List α} {f g : α → List β}
    (h : ∀ a ∈ l, f a = g a) : l.flatMap f = l.flatMap g := by
  induction l with
  | nil => rfl
  | cons x xs ih =>
    simp only [List.flatMap_cons]
    rw [h x (List.mem_cons_self x xs), ih (fun a ha => h a (List.mem_cons_of_mem x ha))]

theorem cuts_le_of_mono (c : Nat → Nat) :
    ∀ t : Nat, (∀ i, i < t → c i ≤ c (i + 1)) → c 0 ≤ c t
  | 0, _ => Nat.le_refl _
  | t + 1, h =>
    Nat.le_trans
      (cuts_le_of_mono c t (fun i hi => h i (Nat.lt_succ_of_lt hi)))
      (h t (Nat.lt_succ_self t))

theorem flatMap_range'_cuts (c : Nat → Nat) :
    ∀ t : Nat, (∀ i, i < t → c i ≤ c (i + 1)) →
      (List.range t).flatMap (fun i => List.range' (c i) (c (i + 1) - c i)) =
        List.range' (c 0) (c t - c 0)
  | 0, _ => by simp
  | t + 1, h => by
    have hmono : ∀ i, i < t → c i ≤ c (i + 1) := fun i hi => h i (Nat.lt_succ_of_lt hi)
    have h0t : c 0 ≤ c t := cuts_le_of_mono c t hmono
    have htt : c t ≤ c (t + 1) := h t (Nat.lt_succ_self t)
    rw [List.range_succ, List.flatMap_append, flatMap_range'_cuts c t hmono]
    simp only [List.flatMap_cons, List.flatMap_nil, List.append_nil]
    have key := List.range'_append_1 (c 0) (c t - c 0) (c (t + 1) - c t)
    rw [show c 0 + (c t - c 0) = c t by omega] at key
    rw [key, show c (t + 1) - c t + (c t - c 0) = c (t + 1) - c 0 by omega]

/-- The start/end cut points of `ranges n t`, as a single function of the
task index. -/
def range_cut (n t i : Nat) : Nat :=
  if i < t then n / t * i else n

theorem range_cut_mono (n t : Nat) (i : Nat) (hi : i < t) :
    range_cut n t i ≤ range_cut n t (i + 1) := by
  unfold range_cut
  rw [if_pos hi]
  by_cases h : i + 1 < t
  · rw [if_pos h]
    exact Nat.mul_le_mul_left _ (Nat.le_succ i)
  · rw [if_neg h]
    calc n / t * i ≤ n / t * t := Nat.mul_le_mul_left _ (Nat.le_of_lt hi)
    _ ≤ n := Nat.div_mul_le_self n t

theorem range_cut_le (n t i : Nat) : range_cut n t i ≤ n := by
  unfold range_cut
  split
  · calc n / t * i ≤ n / t * t := Nat.mul_le_mul_left _ (by omega)
    _ ≤ n := Nat.div_mul_le_self n t
  · exact Nat.le_refl n

theorem ranges_eq_map_cuts (n t : Nat) (ht : 1 ≤ t) :
    ranges n t = (List.range t).map (fun i => (range_cut n t i, range_cut n t (i + 1))) := by
  unfold ranges records_per_thread
  apply List.map_congr_left
  intro i hi
  have hi' : i < t := List.mem_range.mp hi
  unfold range_cut
  rw [if_pos hi']
  by_cases h : i = t - 1
  · have : ¬i + 1 < t := by omega
    rw [if_pos h, if_neg this]
  · have : i + 1 < t := by omega
    rw [if_neg h, if_pos this]

/-- Coverage, index form: the ranges cover `[0, n)` exactly once, in order. -/
theorem ranges_flatMap_range' (n t : Nat) (ht : 1 ≤ t) :
    (ranges n t).flatMap (fun r => List.range' r.1 (r.2 - r.1)) = List.range n := by
  rw [ranges_eq_map_cuts n t ht, List.flatMap_map]
  have h := flatMap_range'_cuts (range_cut n t) t (fun i hi => range_cut_mono n t i hi)
  simp only at h ⊢
  rw [h]
  have h0 : range_cut n t 0 = 0 := by
    unfold range_cut
    rw [if_pos (by omega)]
    exact Nat.mul_zero _
  have hT : range_cut n t t = n := by
    unfold range_cut
    rw [if_neg (by omega)]
  rw [h0, hT, Nat.sub_zero, List.range_eq_range']

theorem mem_ranges_bounds {n t : Nat} (ht : 1 ≤ t) {r : Nat × Nat}
    (hr : r ∈ ranges n t) : r.1 ≤ r.2 ∧ r.2 ≤ n := by
  rw [ranges_eq_map_cuts n t ht] at hr
  obtain ⟨i, hi, rfl⟩ := List.mem_map.mp hr
  exact ⟨range_cut_mono n t i (List.mem_range.mp hi), range_cut_le n t (i + 1)⟩

theorem drop_take_eq_map_range' {α : Type} (l : List α) (d : α) :
    ∀ len s, s + len ≤ l.length →
      (l.drop s).take len = (List.range' s len).map (fun i => l.getD i d)
  | 0, s, _ => by simp
  | len + 1, s, h => by
    have hs : s < l.length := by omega
    rw [List.range'_succ, List.map_cons, List.drop_eq_getElem_cons hs,
      List.take_succ_cons, drop_take_eq_map_range' l d len (s + 1) (by omega)]
    congr 1
    rw [List.getD_eq_getElem?_getD, List.getElem?_eq_getElem hs]
    rfl

theorem map_getD_range {α : Type} (l : List α) (d : α) :
    (List.range l.length).map (fun i => l.getD i d) = l := by
  have h := drop_take_eq_map_range' l d l.length 0 (by omega)
  rw [List.drop_zero, List.take_length] at h
  rw [List.range_eq_range']
  exact h.symm

/-- Coverage, list form: the slices handed to the tasks concatenate back to
the whole record list. -/
theorem ranges_flatMap_slices {α : Type} (l : List α) (t : Nat) (ht : 1 ≤ t) :
    (ranges l.length t).flatMap (fun r => (l.drop r.1).take (r.2 - r.1)) = l := by
  cases l with
  | nil => simp
  | cons x xs =>
    have hcongr : ∀ r ∈ ranges (x :: xs).length t,
        ((x :: xs).drop r.1).take (r.2 - r.1) =
          (List.range' r.1 (r.2 - r.1)).map (fun i => (x :: xs).getD i x) := by
      intro r hr
      obtain ⟨h12, h2n⟩ := mem_ranges_bounds ht hr
      exact drop_take_eq_map_range' (x :: xs) x (r.2 - r.1) r.1 (by omega)
    rw [list_flatMap_congr hcongr, ← List.map_flatMap,
      ranges_flatMap_range' (x :: xs).length t ht, map_getD_range]

/-! ### chunksOf lemmas -/

theorem chunksOf_cons_eq {α : Type} (c : Nat) (hc : c ≠ 0) (l : List α) (hl : l ≠ []) :
    chunksOf c l = l.take c :: chunksOf c (l.drop c) := by
  cases l with
  | nil => exact absurd rfl hl
  | cons x xs => simp [chunksOf, hc]

theorem chunksOf_flatten {α : Type} (c : Nat) (hc : c ≠ 0) :
    ∀ l : List α, (chunksOf c l).flatten = l
  | [] => by simp [chunksOf]
  | x :: xs => by
    rw [chunksOf_cons_eq c hc _ (by simp), List.flatten_cons,
      chunksOf_flatten c hc ((x :: xs).drop c), List.take_append_drop]
termination_by l => l.length
decreasing_by
  simp only [List.length_drop, List.length_cons]
  omega

/-! ### zipWith / map helpers -/

theorem zipWith_self_map {α β γ : Type} (f : α → β → γ) (g : α → β) :
    ∀ l : List α, List.zipWith f l (l.map g) = l.map (fun x => f x (g x))
  | [] => rfl
  | x :: xs => by simp [zipWith_self_map f g xs]

theorem zipWith_map_same {α β γ δ : Type} (h : β → γ → δ) (f : α → β) (g : α → γ) :
    ∀ l : List α, List.zipWith h (l.map f) (l.map g) = l.map (fun x => h (f x) (g x))
  | [] => rfl
  | x :: xs => by simp [zipWith_map_same h f g xs]

theorem zip_self_map {α β : Type} (g : α → β) (l : List α) :
    l.zip (l.map g) = l.map (fun x => (x, g x)) := by
  rw [List.zip, zipWith_self_map]

theorem replicate_eq_map_range {α : Type} (n : Nat) (x : α) :
    List.replicate n x = (List.range n).map (fun _ => x) := by
  rw [List.map_const', List.length_range]

/-! ### Single-part pipeline, flattened -/

/-- With at least one worker thread, one single-part chunk produces exactly
one line per record, in record order. -/
theorem chunk_lines_eq_map {σ : Type} (a : SearchArguments) (ibf : IBF)
    (precomp : List Nat) (extract : σ → List Nat) (records : List (String × σ))
    (ht : 1 ≤ a.threads) :
    chunk_lines a ibf precomp extract records =
      records.map (record_line a ibf precomp extract) := by
  unfold chunk_lines worker_task
  rw [← List.map_flatMap, ranges_flatMap_slices records a.threads ht]

theorem chunk_size_ne_zero : chunk_size ≠ 0 := by
  unfold chunk_size
  norm_num

/-- With at least one worker thread, the single-part results file holds
exactly one line per record of the whole input, in record order. -/
theorem run_single_eq_map {σ : Type} (a : SearchArguments) (ibf : IBF)
    (precomp : List Nat) (extract : σ → List Nat) (records : List (String × σ))
    (ht : 1 ≤ a.threads) :
    run_program_single_file a ibf precomp extract records =
      records.map (record_line a ibf precomp extract) := by
  unfold run_program_single_file
  rw [list_flatMap_congr (fun ch _ => chunk_lines_eq_map a ibf precomp extract ch ht)]
  rw [List.flatMap_def, ← List.map_flatten, chunksOf_flatten chunk_size chunk_size_ne_zero]

theorem single_chunk_pairs_eq_flatMap {σ : Type} (a : SearchArguments) (ibf : IBF)
    (precomp : List Nat) (extract : σ → List Nat) (records : List (String × σ))
    (ht : 1 ≤ a.threads) :
    single_chunk_pairs a ibf precomp extract records =
      records.flatMap (record_pairs a ibf precomp extract) := by
  unfold single_chunk_pairs
  rw [← List.flatMap_assoc, ranges_flatMap_slices records a.threads ht]

theorem run_single_pairs_eq_flatMap {σ : Type} (a : SearchArguments) (ibf : IBF)
    (precomp : List Nat) (extract : σ → List Nat) (records : List (String × σ))
    (ht : 1 ≤ a.threads) :
    run_single_pairs a ibf precomp extract records =
      records.flatMap (record_pairs a ibf precomp extract) := by
  unfold run_single_pairs
  rw [list_flatMap_congr
    (fun ch _ => single_chunk_pairs_eq_flatMap a ibf precomp extract ch ht)]
  have h := List.flatMap_assoc (chunksOf chunk_size records) id
    (record_pairs a ibf precomp extract)
  simp only [id] at h
  rw [← h, List.flatMap_id, chunksOf_flatten chunk_size chunk_size_ne_zero]

/-! ### Multi-part accumulators, flattened -/

/-- The per-part loop over a chunk acts record-wise: afterwards record `r`
holds the fold of its own per-part bulk counts. -/
theorem foldl_count_chunk_eq_map {σ : Type} (extract : σ → List Nat)
    (ibfOf : Nat → IBF) (records : List (String × σ)) :
    ∀ (ps : List Nat) (g : (String × σ) → List Nat),
      ps.foldl (fun cs i => count_chunk extract (ibfOf i) records cs) (records.map g) =
        records.map (fun r => ps.foldl
          (fun acc i => addCounts acc (bulk_count (ibfOf i) (extract r.2))) (g r))
  | [], g => by simp
  | p :: ps, g => by
    simp only [List.foldl_cons]
    rw [show count_chunk extract (ibfOf p) records (records.map g) =
        records.map (fun r => addCounts (g r) (bulk_count (ibfOf p) (extract r.2))) by
      unfold count_chunk
      rw [zipWith_self_map]]
    exact foldl_count_chunk_eq_map extract ibfOf records ps _

/-- Value of the accumulator fold, per bin: the wrapped 8-bit sum of the
per-part counts. -/
theorem foldl_addCounts_eq_map (B : Nat) (cnt : Nat → Nat → Nat) :
    ∀ k : Nat,
      (List.range k).foldl
          (fun acc i => addCounts acc ((List.range B).map (fun b => cnt i b % 256)))
          ((List.range B).map (fun _ => 0)) =
        (List.range B).map (fun b => (∑ i ∈ Finset.range k, cnt i b) % 256)
  | 0 => by simp
  | k + 1 => by
    rw [List.range_succ, List.foldl_append, foldl_addCounts_eq_map B cnt k]
    simp only [List.foldl_cons, List.foldl_nil]
    unfold addCounts
    rw [zipWith_map_same]
    apply List.map_congr_left
    intro b _
    rw [Finset.sum_range_succ]
    omega

/-- The accumulator passes act record-wise. -/
theorem chunk_accumulators_eq_map {σ : Type} (a : SearchArguments)
    (ibfOf : Nat → IBF) (extract : σ → List Nat)
    (records : List (String × σ)) :
    chunk_accumulators a ibfOf extract records =
      records.map (fun r => (List.range (a.parts - 1)).foldl
        (fun acc i => addCounts acc (bulk_count (ibfOf i) (extract r.2)))
        (List.replicate (ibfOf 0).bins 0)) :=
  foldl_count_chunk_eq_map extract ibfOf records _ _

/-- The per-record accumulator at output time in multi-part mode: parts
`0 .. parts-2` folded into the zero vector, then the final part added. -/
def multi_record_counts (a : SearchArguments) (ibfOf : Nat → IBF)
    (minimiser : List Nat) : List Nat :=
  addCounts
    ((List.range (a.parts - 1)).foldl
      (fun acc i => addCounts acc (bulk_count (ibfOf i) minimiser))
      (List.replicate (ibfOf 0).bins 0))
    (bulk_count (ibfOf (a.parts - 1)) minimiser)

/-- With at least one worker thread, one multi-part chunk produces exactly
one line per record, in record order, from the accumulated counts. -/
theorem multi_chunk_lines_eq_map {σ : Type} (a : SearchArguments)
    (ibfOf : Nat → IBF) (precomp : List Nat) (extract : σ → List Nat)
    (records : List (String × σ)) (ht : 1 ≤ a.threads) :
    multi_chunk_lines a ibfOf precomp extract records =
      records.map (fun r =>
        result_line r.1 (multi_record_counts a ibfOf (extract r.2))
          (threshold_select a precomp (extract r.2).length)) := by
  unfold multi_chunk_lines
  rw [chunk_accumulators_eq_map, zip_self_map]
  have hlen : records.length =
      (records.map (fun r => (r, (List.range (a.parts - 1)).foldl
        (fun acc i => addCounts acc (bulk_count (ibfOf i) (extract r.2)))
        (List.replicate (ibfOf 0).bins 0)))).length := by
    rw [List.length_map]
  rw [hlen, ← List.map_flatMap, ranges_flatMap_slices _ a.threads ht, List.map_map]
  apply List.map_congr_left
  intro r _
  rfl

theorem multi_chunk_pairs_eq_flatMap {σ : Type} (a : SearchArguments)
    (ibfOf : Nat → IBF) (precomp : List Nat) (extract : σ → List Nat)
    (records : List (String × σ)) (ht : 1 ≤ a.threads) :
    multi_chunk_pairs a ibfOf precomp extract records =
      records.flatMap (fun r =>
        (hitBins (multi_record_counts a ibfOf (extract r.2))
          (threshold_select a precomp (extract r.2).length)).map
            (fun b => (r.1, b))) := by
  unfold multi_chunk_pairs
  rw [chunk_accumulators_eq_map, zip_self_map]
  have hlen : records.length =
      (records.map (fun r => (r, (List.range (a.parts - 1)).foldl
        (fun acc i => addCounts acc (bulk_count (ibfOf i) (extract r.2)))
        (List.replicate (ibfOf 0).bins 0)))).length := by
    rw [List.length_map]
  rw [hlen, ← List.flatMap_assoc, ranges_flatMap_slices _ a.threads ht,
    List.flatMap_map]
  rfl


/-! ### Multi-part counts, pointwise -/

/-- Per bin, the multi-part accumulator holds the wrapped 8-bit sum of the
per-part counts over all `parts` parts (the counting passes plus the final
part added in `output_task`). -/
theorem multi_record_counts_pointwise (a : SearchArguments) (ibfOf : Nat → IBF)
    (B : Nat) (hB : ∀ i, (ibfOf i).bins = B) (hp : 1 ≤ a.parts) (m : List Nat) :
    multi_record_counts a ibfOf m =
      (List.range B).map (fun b =>
        (∑ i ∈ Finset.range a.parts, m.countP (fun h => (ibfOf i).mem h b)) % 256) := by
  unfold multi_record_counts
  have hbc : ∀ i, bulk_count (ibfOf i) m =
      (List.range B).map (fun b => m.countP (fun h => (ibfOf i).mem h b) % 256) := by
    intro i
    unfold bulk_count
    rw [hB i]
  have hinit : List.replicate (ibfOf 0).bins (0 : Nat) =
      (List.range B).map (fun _ => 0) := by
    rw [hB 0, replicate_eq_map_range]
  simp only [hbc, hinit]
  rw [foldl_addCounts_eq_map B (fun i b => m.countP (fun h => (ibfOf i).mem h b))
    (a.parts - 1)]
  unfold addCounts
  rw [zipWith_map_same]
  apply List.map_congr_left
  intro b _
  have hsplit : a.parts = a.parts - 1 + 1 := by omega
  rw [hsplit, Finset.sum_range_succ, ← hsplit]
  omega

/-- Under a bin partition with an owner part per bin, the per-part counts
sum to the unsplit filter's count. -/
theorem partition_counts (parts : Nat) (ibfOf : Nat → IBF) (M : IBF)
    (owner : Nat → Nat) (m : List Nat) (b : Nat)
    (ho : owner b < parts)
    (hmem : ∀ h, (ibfOf (owner b)).mem h b = M.mem h b)
    (hdisj : ∀ i, i < parts → i ≠ owner b → ∀ h, (ibfOf i).mem h b = false) :
    ∑ i ∈ Finset.range parts, m.countP (fun h => (ibfOf i).mem h b) =
      m.countP (fun h => M.mem h b) := by
  rw [Finset.sum_eq_single_of_mem (owner b) (Finset.mem_range.mpr ho)]
  · exact List.countP_congr (fun x _ => by simp [hmem x])
  · intro i hi hne
    exact List.countP_eq_zero.mpr
      (fun x _ => by simp [hdisj i (Finset.mem_range.mp hi) hne x])

/-- Under a bin partition, the multi-part accumulator of a record equals
the single-part bulk count on the unsplit filter. -/
theorem multi_record_counts_eq_single (a : SearchArguments) (ibfOf : Nat → IBF)
    (M : IBF) (owner : Nat → Nat) (hp : 1 ≤ a.parts)
    (hB : ∀ i, (ibfOf i).bins = M.bins)
    (how : ∀ b, b < M.bins → owner b < a.parts)
    (hmem : ∀ b, b < M.bins → ∀ h, (ibfOf (owner b)).mem h b = M.mem h b)
    (hdisj : ∀ b, b < M.bins → ∀ i, i < a.parts → i ≠ owner b → ∀ h,
      (ibfOf i).mem h b = false)
    (m : List Nat) :
    multi_record_counts a ibfOf m = bulk_count M m := by
  rw [multi_record_counts_pointwise a ibfOf M.bins hB hp m]
  unfold bulk_count
  apply List.map_congr_left
  intro b hb
  have hb' : b < M.bins := List.mem_range.mp hb
  rw [partition_counts a.parts ibfOf M owner m b (how b hb') (hmem b hb')
    (hdisj b hb')]

/-! ### Rendering lemmas -/

theorem string_foldl_append (l : List String) :
    ∀ s : String, l.foldl (fun r t => r ++ t) s = s ++ l.foldl (fun r t => r ++ t) "" := by
  induction l with
  | nil =>
    intro s
    simp only [List.foldl_nil]
    rw [String.append_empty]
  | cons x xs ih =>
    intro s
    rw [List.foldl_cons, List.foldl_cons, ih (s ++ x), ih ("" ++ x),
      String.empty_append, String.append_assoc]

theorem string_join_cons (x : String) (l : List String) :
    String.join (x :: l) = x ++ String.join l := by
  show List.foldl (fun r t => r ++ t) "" (x :: l) = x ++ String.join l
  rw [List.foldl_cons, String.empty_append]
  exact string_foldl_append l x

/-- The bin loop renders exactly the hit bins, each as its decimal numeral
followed by a comma, in ascending order (shifted by the starting bin). -/
theorem bins_string_eq_join (t : Nat) :
    ∀ (counts : List Nat) (b0 : Nat),
      bins_string t counts b0 =
        String.join (((List.range counts.length).filter
          (fun b => decide (t ≤ counts.getD b 0))).map
            (fun i => Nat.repr (b0 + i) ++ ","))
  | [], b0 => by simp [bins_string, String.join]
  | c :: cs, b0 => by
    rw [bins_string, bins_string_eq_join t cs (b0 + 1)]
    simp only [List.length_cons, List.range_succ_eq_map, List.filter_cons,
      List.getD_cons_zero]
    have hfil : List.filter ((fun b => decide (t ≤ (c :: cs).getD b 0)) ∘ Nat.succ)
        (List.range cs.length) =
        List.filter (fun b => decide (t ≤ cs.getD b 0)) (List.range cs.length) := by
      apply List.filter_congr
      intro i _
      simp only [Function.comp_apply, List.getD_cons_succ]
    have htail : String.join (List.map (fun i => Nat.repr (b0 + 1 + i) ++ ",")
        (List.filter (fun b => decide (t ≤ cs.getD b 0)) (List.range cs.length))) =
        String.join (List.map (fun i => Nat.repr (b0 + i) ++ ",")
          (List.map Nat.succ
            (List.filter ((fun b => decide (t ≤ (c :: cs).getD b 0)) ∘ Nat.succ)
              (List.range cs.length)))) := by
      rw [List.map_map, hfil]
      apply congrArg
      apply List.map_congr_left
      intro i _
      simp only [Function.comp_apply]
      have hadd : b0 + 1 + i = b0 + Nat.succ i := by omega
      rw [hadd]
    by_cases hc : t ≤ c
    · rw [if_pos hc, if_pos (decide_eq_true hc), List.map_cons, string_join_cons]
      simp only [Nat.add_zero]
      rw [htail, List.filter_map]
    · rw [if_neg hc, if_neg (by simpa using hc : ¬decide (t ≤ c) = true),
        String.empty_append, htail, List.filter_map]

/-- Membership in the reported bins. -/
theorem mem_hitBins_iff (counts : List Nat) (t b : Nat) :
    b ∈ hitBins counts t ↔ b < counts.length ∧ t ≤ counts.getD b 0 := by
  unfold hitBins
  rw [List.mem_filter, List.mem_range, decide_eq_true_iff]

/-- The reported bins are strictly ascending. -/
theorem hitBins_pairwise (counts : List Nat) (t : Nat) :
    (hitBins counts t).Pairwise (· < ·) :=
  (List.pairwise_lt_range counts.length).filter _

/-- When every count is below the threshold nothing is rendered. -/
theorem bins_string_of_all_lt (t : Nat) :
    ∀ (counts : List Nat) (b0 : Nat), (∀ c ∈ counts, c < t) →
      bins_string t counts b0 = ""
  | [], _, _ => by simp [bins_string]
  | c :: cs, b0, h => by
    rw [bins_string]
    have hc : ¬t ≤ c := by
      have := h c (List.mem_cons_self c cs)
      omega
    rw [if_neg hc, String.empty_append]
    exact bins_string_of_all_lt t cs (b0 + 1)
      (fun x hx => h x (List.mem_cons_of_mem c hx))

theorem ranges_getD (n t i : Nat) (d : Nat × Nat) (hi : i < t) :
    (ranges n t).getD i d =
      (n / t * i, if i = t - 1 then n else n / t * (i + 1)) := by
  unfold ranges records_per_thread
  rw [List.getD_eq_getElem?_getD, List.getElem?_map, List.getElem?_range hi]
  rfl

/-! ### Claim theorems -/

/-- C1: for observed minimiser count `m`, the threshold is
`⌊m * threshold⌋` when the user threshold was set; else `kmer_lemma =
max(0, p + 1 - (e+1)k)` when `kmers_per_window = w - k + 1` equals 1; else
`T[min(m < min_minimisers ? 0 : m - min_minimisers,
max_minimisers - min_minimisers)] + 2` with
`min_minimisers = ceil((p-k+1)/(w-k+1))` and `max_minimisers = p - w + 1`,
clamp and `+2` preserved exactly; and a bin is reported exactly when its
count reaches this threshold. -/
theorem C1_threshold_selection (a : SearchArguments) (precomp : List Nat)
    (m : Nat) :
    (a.treshold_was_set = true →
      threshold_select a precomp m = Nat.floor ((m : ℚ) * a.threshold))
    ∧ (a.treshold_was_set = false → a.window_size - a.kmer_size + 1 = 1 →
      threshold_select a precomp m =
        (max 0 ((a.pattern_size : ℤ) + 1 -
          ((a.errors : ℤ) + 1) * (a.kmer_size : ℤ))).toNat)
    ∧ (a.treshold_was_set = false → a.window_size - a.kmer_size + 1 ≠ 1 →
      ∀ mm, mm = Nat.ceil (((a.pattern_size - a.kmer_size + 1 : Nat) : ℚ) /
          ((a.window_size - a.kmer_size + 1 : Nat) : ℚ)) →
        threshold_select a precomp m =
          precomp.getD (min (if m < mm then 0 else m - mm)
            ((a.pattern_size - a.window_size + 1) - mm)) 0 + 2)
    ∧ (∀ counts : List Nat, ∀ b : Nat,
        b ∈ hitBins counts (threshold_select a precomp m) ↔
          b < counts.length ∧ threshold_select a precomp m ≤ counts.getD b 0) := by
  refine ⟨?_, ?_, ?_, fun counts b => mem_hitBins_iff counts _ b⟩
  · intro h
    unfold threshold_select
    rw [if_pos h]
    exact Int.floor_toNat _
  · intro h h1
    unfold threshold_select
    rw [if_neg (by simp [h])]
    have h1' : kmers_per_window a = 1 := by
      unfold kmers_per_window
      exact h1
    rw [if_pos h1']
    have hq : ((a.errors : ℤ) + 1) * (a.kmer_size : ℤ) =
        (((a.errors + 1) * a.kmer_size : Nat) : ℤ) := by
      push_cast
      ring
    rw [hq]
    unfold kmer_lemma
    split <;> omega
  · intro h h1 mm hmm
    have h1' : kmers_per_window a ≠ 1 := by
      unfold kmers_per_window
      exact h1
    unfold threshold_select
    rw [if_neg (by simp [h]), if_neg h1']
    unfold min_number_of_minimisers
    rw [if_neg h1']
    unfold max_number_of_minimisers kmers_per_pattern kmers_per_window
    rw [hmm]

/-- Concrete parameterisations used by witnesses. -/
def argsC1 : SearchArguments :=
  ⟨19, 23, 100, 2, 1, 1, true, 4, 1, false, false⟩

def argsC1b : SearchArguments :=
  ⟨2, 2, 6, 0, 1, 0, false, 4, 1, false, false⟩

def argsC1c : SearchArguments :=
  ⟨19, 23, 100, 2, 1, 0, false, 4, 1, false, false⟩

theorem C1_threshold_selection_witness :
    threshold_select argsC1 [] 7 = Nat.floor ((7 : ℚ) * argsC1.threshold)
    ∧ threshold_select argsC1b [] 7 =
      (max 0 ((argsC1b.pattern_size : ℤ) + 1 -
        ((argsC1b.errors : ℤ) + 1) * (argsC1b.kmer_size : ℤ))).toNat
    ∧ threshold_select argsC1c [] 90 =
      [].getD (min
        (if 90 < Nat.ceil (((argsC1c.pattern_size - argsC1c.kmer_size + 1 : Nat) : ℚ) /
            ((argsC1c.window_size - argsC1c.kmer_size + 1 : Nat) : ℚ)) then 0
         else 90 - Nat.ceil (((argsC1c.pattern_size - argsC1c.kmer_size + 1 : Nat) : ℚ) /
            ((argsC1c.window_size - argsC1c.kmer_size + 1 : Nat) : ℚ)))
        ((argsC1c.pattern_size - argsC1c.window_size + 1) -
          Nat.ceil (((argsC1c.pattern_size - argsC1c.kmer_size + 1 : Nat) : ℚ) /
            ((argsC1c.window_size - argsC1c.kmer_size + 1 : Nat) : ℚ)))) 0 + 2
    ∧ (0 ∈ hitBins [5, 0] (threshold_select argsC1b [] 7) ↔
        0 < ([5, 0] : List Nat).length ∧
          threshold_select argsC1b [] 7 ≤ ([5, 0] : List Nat).getD 0 0) :=
  ⟨(C1_threshold_selection argsC1 [] 7).1 rfl,
   (C1_threshold_selection argsC1b [] 7).2.1 rfl (by decide),
   (C1_threshold_selection argsC1c [] 90).2.2.1 rfl (by decide) _ rfl,
   (C1_threshold_selection argsC1b [] 7).2.2.2 [5, 0] 0⟩

/-- C2: every output line is the query id, one tab, then the decimal bin
ids of all bins meeting the threshold in ascending order, each (the last
included) followed by a comma, then a single LF; with no hits the line is
exactly id, tab, LF. -/
theorem C2_output_line_format (id : String) (counts : List Nat) (t : Nat) :
    result_line id counts t =
      id ++ "\t" ++
        String.join ((hitBins counts t).map (fun b => Nat.repr b ++ ",")) ++ "\n"
    ∧ (hitBins counts t).Pairwise (· < ·)
    ∧ (∀ b, b ∈ hitBins counts t ↔ b < counts.length ∧ t ≤ counts.getD b 0)
    ∧ (hitBins counts t = [] → result_line id counts t = id ++ "\t" ++ "\n") := by
  have hline : result_line id counts t =
      id ++ "\t" ++
        String.join ((hitBins counts t).map (fun b => Nat.repr b ++ ",")) ++ "\n" := by
    unfold result_line hitBins
    rw [bins_string_eq_join t counts 0]
    have : ((List.range counts.length).filter
        (fun b => decide (t ≤ counts.getD b 0))).map
          (fun i => Nat.repr (0 + i) ++ ",") =
        ((List.range counts.length).filter
          (fun b => decide (t ≤ counts.getD b 0))).map
            (fun b => Nat.repr b ++ ",") := by
      apply List.map_congr_left
      intro i _
      rw [Nat.zero_add]
    rw [this]
  refine ⟨hline, hitBins_pairwise counts t,
    fun b => mem_hitBins_iff counts t b, fun hnil => ?_⟩
  rw [hline, hnil]
  simp only [List.map_nil]
  rw [show String.join [] = "" from rfl, String.append_empty]

theorem C2_output_line_format_witness :
    result_line "q" [3, 0, 7] 2 =
      "q" ++ "\t" ++
        String.join ((hitBins [3, 0, 7] 2).map (fun b => Nat.repr b ++ ",")) ++ "\n"
    ∧ (hitBins ([] : List Nat) 2 = [] →
        result_line "id0" [] 2 = "id0" ++ "\t" ++ "\n") :=
  ⟨(C2_output_line_format "q" [3, 0, 7] 2).1,
   (C2_output_line_format "id0" [] 2).2.2.2⟩

/-- C7: with the user threshold set, for the same record (same observed
minimiser count, same counts), raising the threshold value within (0,1]
never adds a reported bin: every bin reported at the larger threshold is
reported at the smaller one. -/
theorem C7_threshold_monotonicity (a1 a2 : SearchArguments) (precomp : List Nat)
    (m : Nat) (counts : List Nat) (b : Nat)
    (h1 : a1.treshold_was_set = true) (h2 : a2.treshold_was_set = true)
    (hpos : 0 < a1.threshold) (hle : a1.threshold ≤ a2.threshold)
    (hub : a2.threshold ≤ 1)
    (hb : b ∈ hitBins counts (threshold_select a2 precomp m)) :
    b ∈ hitBins counts (threshold_select a1 precomp m) := by
  rw [mem_hitBins_iff] at hb ⊢
  refine ⟨hb.1, le_trans ?_ hb.2⟩
  unfold threshold_select
  rw [if_pos h1, if_pos h2]
  apply Int.toNat_le_toNat
  apply Int.floor_le_floor
  exact mul_le_mul_of_nonneg_left hle (by positivity)

def argsC7a : SearchArguments :=
  ⟨19, 23, 100, 2, 1, 1 / 2, true, 4, 1, false, false⟩

def argsC7b : SearchArguments :=
  ⟨19, 23, 100, 2, 1, 1, true, 4, 1, false, false⟩

theorem C7_threshold_monotonicity_witness :
    0 ∈ hitBins [7] (threshold_select argsC7a [] 4) :=
  C7_threshold_monotonicity argsC7a argsC7b [] 4 [7] 0 rfl rfl
    (by norm_num [argsC7a]) (by norm_num [argsC7a, argsC7b])
    (by norm_num [argsC7b])
    (by
      have h4 : threshold_select argsC7b [] 4 = 4 := by
        have hset : argsC7b.treshold_was_set = true := rfl
        unfold threshold_select
        rw [if_pos hset]
        have hthr : argsC7b.threshold = 1 := rfl
        rw [hthr, mul_one]
        norm_num
        rfl
      rw [h4]
      decide)

/-- C8: with `t >= 1` threads, `do_parallel` spawns exactly `t` tasks over
contiguous half-open ranges: task `i < t - 1` gets
`[i * (n / t), (i + 1) * (n / t))`, the final task gets
`[(t - 1) * (n / t), n)`, and the returned list holds one completed result
per spawned task (the driver waits for all of them). -/
theorem C8_do_parallel_tasks {α : Type} (worker : Nat → Nat → α) (n t : Nat)
    (ht : 1 ≤ t) :
    (do_parallel worker n t).length = t
    ∧ (ranges n t).length = t
    ∧ (∀ i, i + 1 < t →
        (ranges n t).getD i (0, 0) = (n / t * i, n / t * (i + 1)))
    ∧ (ranges n t).getD (t - 1) (0, 0) = (n / t * (t - 1), n)
    ∧ do_parallel worker n t = (ranges n t).map (fun r => worker r.1 r.2) := by
  refine ⟨?_, ?_, ?_, ?_, rfl⟩
  · unfold do_parallel ranges
    rw [List.length_map, List.length_map, List.length_range]
  · unfold ranges
    rw [List.length_map, List.length_range]
  · intro i hi
    rw [ranges_getD n t i (0, 0) (by omega), if_neg (by omega)]
  · rw [ranges_getD n t (t - 1) (0, 0) (by omega), if_pos rfl]

theorem C8_do_parallel_tasks_witness :
    (do_parallel (fun s e => (s, e)) 7 3).length = 3
    ∧ (ranges 7 3).getD 0 (0, 0) = (7 / 3 * 0, 7 / 3 * 1)
    ∧ (ranges 7 3).getD (3 - 1) (0, 0) = (7 / 3 * (3 - 1), 7) :=
  ⟨(C8_do_parallel_tasks (fun s e => (s, e)) 7 3 (by decide)).1,
   (C8_do_parallel_tasks (fun s e => (s, e)) 7 3 (by decide)).2.2.1 0 (by decide),
   (C8_do_parallel_tasks (fun s e => (s, e)) 7 3 (by decide)).2.2.2.1⟩

/-- C10: with `t >= 1` threads the task ranges cover `[0, n)` exactly once
and in order (so each record is processed by exactly one task); in the
edge case `t > n` the quotient `n / t` is zero, the first `t - 1` ranges
are empty and the final range is all of `[0, n)`.  `t >= 1` is required
throughout: the driver divides by `t`. -/
theorem C10_ranges_cover (n t : Nat) (ht : 1 ≤ t) :
    (ranges n t).flatMap (fun r => List.range' r.1 (r.2 - r.1)) = List.range n
    ∧ (n < t →
        (∀ i, i + 1 < t → (ranges n t).getD i (1, 1) = (0, 0))
        ∧ (ranges n t).getD (t - 1) (1, 1) = (0, n)) := by
  refine ⟨ranges_flatMap_range' n t ht, fun hnt => ⟨?_, ?_⟩⟩
  · intro i hi
    rw [ranges_getD n t i (1, 1) (by omega), if_neg (by omega),
      Nat.div_eq_of_lt hnt, Nat.zero_mul, Nat.zero_mul]
  · rw [ranges_getD n t (t - 1) (1, 1) (by omega), if_pos rfl,
      Nat.div_eq_of_lt hnt, Nat.zero_mul]

theorem C10_ranges_cover_witness :
    (ranges 2 5).flatMap (fun r => List.range' r.1 (r.2 - r.1)) = List.range 2
    ∧ (ranges 2 5).getD 0 (1, 1) = (0, 0)
    ∧ (ranges 2 5).getD (5 - 1) (1, 1) = (0, 2) :=
  ⟨(C10_ranges_cover 2 5 (by decide)).1,
   ((C10_ranges_cover 2 5 (by decide)).2 (by decide)).1 0 (by decide),
   ((C10_ranges_cover 2 5 (by decide)).2 (by decide)).2⟩

/-- C6 (amended): the skip of the threshold-table step is keyed on the
threshold VALUE being nonzero (`!arguments.threshold`), not on
`treshold_was_set`: when `threshold` is nonzero nothing is read or
computed; when it is zero a cache read is attempted first, a hit is
returned as-is, and only a miss triggers `precompute_threshold` and the
write-back; a rerun against the resulting cache does not recompute. -/
theorem C6_threshold_cache_policy
    (f : Nat → Nat → Nat → Nat → ℚ → List Nat) (a : SearchArguments)
    (cache : Option (List Nat)) :
    (a.threshold ≠ 0 →
      compute_simple_model f a cache = ⟨[], cache, false, false, false⟩)
    ∧ (a.threshold = 0 → ∀ tbl, cache = some tbl →
        compute_simple_model f a cache = ⟨tbl, some tbl, true, false, false⟩)
    ∧ (a.threshold = 0 → cache = none →
        compute_simple_model f a cache =
          ⟨f a.pattern_size a.window_size a.kmer_size a.errors a.tau,
           some (f a.pattern_size a.window_size a.kmer_size a.errors a.tau),
           true, true, true⟩)
    ∧ (a.threshold = 0 →
        (compute_simple_model f a
          ((compute_simple_model f a cache).cache_out)).recomputed = false) := by
  refine ⟨fun h => ?_, fun h tbl hc => ?_, fun h hc => ?_, fun h => ?_⟩
  · unfold compute_simple_model
    rw [if_neg h]
  · unfold compute_simple_model
    rw [if_pos h, hc]
  · unfold compute_simple_model
    rw [if_pos h, hc]
  · unfold compute_simple_model
    rw [if_pos h, if_pos h]
    cases cache <;> simp

def argsC6zero : SearchArguments :=
  ⟨19, 23, 100, 2, 1, 0, true, 4, 1, false, false⟩

def argsC6nonzero : SearchArguments :=
  ⟨19, 23, 100, 2, 1, 1, true, 4, 1, false, false⟩

theorem C6_threshold_cache_policy_witness :
    compute_simple_model (fun _ _ _ _ _ => [7]) argsC6nonzero (some [3]) =
      ⟨[], some [3], false, false, false⟩
    ∧ compute_simple_model (fun _ _ _ _ _ => [7]) argsC6zero (some [3]) =
      ⟨[3], some [3], true, false, false⟩
    ∧ compute_simple_model (fun _ _ _ _ _ => [7]) argsC6zero none =
      ⟨[7], some [7], true, true, true⟩ :=
  ⟨(C6_threshold_cache_policy (fun _ _ _ _ _ => [7]) argsC6nonzero (some [3])).1
      (by norm_num [argsC6nonzero]),
   (C6_threshold_cache_policy (fun _ _ _ _ _ => [7]) argsC6zero (some [3])).2.1
      rfl [3] rfl,
   (C6_threshold_cache_policy (fun _ _ _ _ _ => [7]) argsC6zero none).2.2.1
      rfl rfl⟩

/-- C6 counterexample: `argsC6zero` has the user-supplied threshold flag
set (`treshold_was_set = true`) with threshold value 0.0, the exact
configuration of spec scenario S4, yet `compute_simple_model` does not
skip: it attempts the cache read and, on a miss, recomputes — because the
source guards on `!arguments.threshold` (the value) instead of the flag. -/
theorem C6_threshold_cache_counterexample :
    argsC6zero.treshold_was_set = true
    ∧ (compute_simple_model (fun _ _ _ _ _ => [7]) argsC6zero none).read_attempted
      = true
    ∧ (compute_simple_model (fun _ _ _ _ _ => [7]) argsC6zero none).recomputed
      = true :=
  ⟨rfl, rfl, rfl⟩

/-- C9 (spec-modelled validation): a parameterisation violating the
section 3 invariants (k > 32, w < k, p < w, or parts < 1) fails validation
before any I/O: the checked search returns `ParameterError` and produces
no results-file content. -/
theorem C9_parameter_validation {σ : Type} (a : SearchArguments)
    (ibfOf : Nat → IBF) (precomp : List Nat) (extract : σ → List Nat)
    (records : List (String × σ))
    (hbad : 32 < a.kmer_size ∨ a.window_size < a.kmer_size ∨
      a.pattern_size < a.window_size ∨ a.parts < 1) :
    raptor_search_checked a ibfOf precomp extract records =
      Except.error SearchError.parameterError := by
  unfold raptor_search_checked
  rw [if_neg]
  intro hval
  unfold validate_arguments at hval
  simp only [Bool.and_eq_true, decide_eq_true_eq] at hval
  obtain ⟨⟨⟨h1, h2⟩, h3⟩, h4⟩ := hval
  rcases hbad with h | h | h | h <;> omega

def argsC9 : SearchArguments :=
  ⟨33, 40, 100, 0, 1, 0, false, 1, 1, false, false⟩

theorem C9_parameter_validation_witness :
    raptor_search_checked argsC9 (fun _ => ⟨1, fun _ _ => true⟩) []
      (id : List Nat → List Nat) [] =
      Except.error SearchError.parameterError :=
  C9_parameter_validation argsC9 (fun _ => ⟨1, fun _ _ => true⟩) [] id []
    (Or.inl (by decide))

theorem bulk_count_nil_mem (ibf : IBF) : ∀ c ∈ bulk_count ibf [], c = 0 := by
  intro c hc
  unfold bulk_count at hc
  obtain ⟨b, _, rfl⟩ := List.mem_map.mp hc
  simp

theorem mem_addCounts_zero : ∀ {l1 l2 : List Nat},
    (∀ c ∈ l1, c = 0) → (∀ c ∈ l2, c = 0) → ∀ c ∈ addCounts l1 l2, c = 0
  | [], _, _, _ => by
    intro c hc
    simp [addCounts] at hc
  | _ :: _, [], _, _ => by
    intro c hc
    simp [addCounts] at hc
  | x :: xs, y :: ys, h1, h2 => by
    intro c hc
    unfold addCounts at hc
    rw [List.zipWith_cons_cons] at hc
    rcases List.mem_cons.mp hc with h | h
    · rw [h1 x (List.mem_cons_self x xs), h2 y (List.mem_cons_self y ys)] at h
      simpa using h
    · exact mem_addCounts_zero (fun c hc => h1 c (List.mem_cons_of_mem x hc))
        (fun c hc => h2 c (List.mem_cons_of_mem y hc)) c h

/-- With no minimisers every entry of the multi-part accumulator is 0. -/
theorem multi_record_counts_nil (a : SearchArguments) (ibfOf : Nat → IBF) :
    ∀ c ∈ multi_record_counts a ibfOf [], c = 0 := by
  unfold multi_record_counts
  apply mem_addCounts_zero
  · have H : ∀ (ps : List Nat) (init : List Nat), (∀ c ∈ init, c = 0) →
        ∀ c ∈ ps.foldl
          (fun acc i => addCounts acc (bulk_count (ibfOf i) [])) init, c = 0 := by
      intro ps
      induction ps with
      | nil => exact fun init h => h
      | cons p ps ih =>
        intro init h
        rw [List.foldl_cons]
        exact ih _ (mem_addCounts_zero h (bulk_count_nil_mem (ibfOf p)))
    exact H _ _ (fun c hc => List.eq_of_mem_replicate hc)
  · exact bulk_count_nil_mem _

theorem chunksOf_eq_single {α : Type} (c : Nat) (hc : c ≠ 0) (l : List α)
    (hl : l ≠ []) (hfit : l.length ≤ c) : chunksOf c l = [l] := by
  rw [chunksOf_cons_eq c hc l hl, List.take_of_length_le hfit,
    List.drop_eq_nil_of_le hfit]
  cases c with
  | zero => exact absurd rfl hc
  | succ n => simp [chunksOf]

/-- C5 (amended): a query with zero minimisers produces exactly the line
id, tab, LF — in both modes — PROVIDED the computed threshold at count 0
is at least 1 (which holds whenever the user threshold is unset and the
table branch applies, since that branch adds 2; a zero threshold instead
reports every bin, see the counterexample). -/
theorem C5_empty_query_line {σ : Type} (a : SearchArguments) (ibf : IBF)
    (ibfOf : Nat → IBF) (precomp : List Nat) (extract : σ → List Nat)
    (qid : String) (s0 : σ)
    (ht : 1 ≤ a.threads) (hzero : extract s0 = [])
    (hthr : 1 ≤ threshold_select a precomp 0) :
    run_program_single_file a ibf precomp extract [(qid, s0)] =
      [qid ++ "\t" ++ "\n"]
    ∧ run_program_multiple_file a ibfOf precomp extract [(qid, s0)] =
      [qid ++ "\t" ++ "\n"] := by
  constructor
  · rw [run_single_eq_map a ibf precomp extract [(qid, s0)] ht]
    rw [List.map_cons, List.map_nil]
    congr 1
    unfold record_line result_line
    show qid ++ "\t" ++
        bins_string (threshold_select a precomp (extract s0).length)
          (bulk_count ibf (extract s0)) 0 ++ "\n" = _
    rw [hzero]
    rw [bins_string_of_all_lt _ _ _ (fun c hc => by
      rw [bulk_count_nil_mem ibf c hc]
      have := hthr
      simp only [List.length_nil] at *
      omega)]
    rw [String.append_empty]
  · unfold run_program_multiple_file
    rw [chunksOf_eq_single chunk_size chunk_size_ne_zero _ (by simp)
      (by
        rw [List.length_cons, List.length_nil]
        have := chunk_size_ne_zero
        omega)]
    rw [List.map_cons, List.map_nil]
    show multi_chunk_lines a ibfOf precomp extract [(qid, s0)] = _
    rw [multi_chunk_lines_eq_map a ibfOf precomp extract [(qid, s0)] ht]
    rw [List.map_cons, List.map_nil]
    congr 1
    unfold result_line
    show qid ++ "\t" ++
        bins_string (threshold_select a precomp (extract s0).length)
          (multi_record_counts a ibfOf (extract s0)) 0 ++ "\n" = _
    rw [hzero]
    rw [bins_string_of_all_lt _ _ _ (fun c hc => by
      rw [multi_record_counts_nil a ibfOf c hc]
      have := hthr
      simp only [List.length_nil] at *
      omega)]
    rw [String.append_empty]

def argsC5 : SearchArguments :=
  ⟨2, 3, 5, 0, 1, 0, false, 1, 2, false, false⟩

theorem C5_empty_query_line_witness :
    run_program_single_file argsC5 ⟨1, fun _ _ => true⟩ [0, 0, 0, 0]
      (id : List Nat → List Nat) [("q", [])] = ["q" ++ "\t" ++ "\n"]
    ∧ run_program_multiple_file argsC5 (fun _ => ⟨1, fun _ _ => true⟩)
      [0, 0, 0, 0] (id : List Nat → List Nat) [("q", [])] =
      ["q" ++ "\t" ++ "\n"] :=
  C5_empty_query_line argsC5 ⟨1, fun _ _ => true⟩ (fun _ => ⟨1, fun _ _ => true⟩)
    [0, 0, 0, 0] id "q" [] (by decide) rfl (by decide)

def argsC5x : SearchArguments :=
  ⟨2, 2, 2, 1, 1, 0, false, 1, 1, false, false⟩

/-- C5 counterexample: under `argsC5x` (user threshold unset,
`kmers_per_window = 1`, `kmer_lemma = 0`, so the computed threshold for a
zero-minimiser query is 0) a query with zero minimisers gets EVERY bin
listed: its line is id, tab, `0,`, LF — not the empty-hit line the claim
promises for every configuration.  (Any configuration with the user
threshold set behaves the same, since `⌊0 * threshold⌋ = 0`.) -/
theorem C5_empty_query_counterexample :
    run_program_single_file argsC5x ⟨1, fun _ _ => true⟩ []
      (id : List Nat → List Nat) [("q", [])] = ["q" ++ "\t" ++ "0," ++ "\n"]
    ∧ "q" ++ "\t" ++ "0," ++ "\n" ≠ "q" ++ "\t" ++ "\n" := by
  constructor
  · rw [run_single_eq_map argsC5x ⟨1, fun _ _ => true⟩ [] id [("q", [])]
      (by decide)]
    decide
  · decide

theorem replicate_ne_nil_of_ne {α : Type} (n : Nat) (x : α) (hn : n ≠ 0) :
    List.replicate n x ≠ [] := by
  rw [Ne, List.replicate_eq_nil_iff]
  exact hn

/-- The chunking of the S6 input: `3 * c + 17` identical records split
into three full chunks and one final chunk of 17. -/
theorem chunksOf_replicate_s6 {α : Type} (x : α) (c : Nat) (hc17 : 17 ≤ c) :
    chunksOf c (List.replicate (3 * c + 17) x) =
      [List.replicate c x, List.replicate c x, List.replicate c x,
       List.replicate 17 x] := by
  have hc : c ≠ 0 := by omega
  rw [chunksOf_cons_eq c hc _ (replicate_ne_nil_of_ne _ x (by omega)),
    List.take_replicate, List.drop_replicate,
    show min c (3 * c + 17) = c from by omega,
    show 3 * c + 17 - c = 2 * c + 17 from by omega]
  rw [chunksOf_cons_eq c hc _ (replicate_ne_nil_of_ne _ x (by omega)),
    List.take_replicate, List.drop_replicate,
    show min c (2 * c + 17) = c from by omega,
    show 2 * c + 17 - c = c + 17 from by omega]
  rw [chunksOf_cons_eq c hc _ (replicate_ne_nil_of_ne _ x (by omega)),
    List.take_replicate, List.drop_replicate,
    show min c (c + 17) = c from by omega,
    show c + 17 - c = 17 from by omega]
  rw [chunksOf_cons_eq c hc _ (replicate_ne_nil_of_ne _ x (by omega)),
    List.take_replicate, List.drop_replicate,
    show min c 17 = 17 from by omega,
    show 17 - c = 0 from by omega]
  rw [List.replicate_zero]
  cases c with
  | zero => exact absurd rfl hc
  | succ n => simp [chunksOf]

def argsC3 : SearchArguments :=
  ⟨2, 2, 2, 1, 1, 0, false, 1, 2, false, false⟩

/-- C3: single-part mode writes exactly one line per record of the whole
input; but in multi-part mode the writer is reopened (and the file
truncated) at every chunk, so the S6 input of `3 * chunk_size + 17`
records — which drives exactly 4 chunks — leaves a finished file of only
17 lines, the final chunk's, instead of one line per record. -/
theorem C3_one_line_per_record :
    (∀ records : List (String × List Nat),
      (run_program_single_file argsC3 ⟨1, fun _ _ => true⟩ []
        (id : List Nat → List Nat) records).length = records.length)
    ∧ (chunksOf chunk_size
        (List.replicate (3 * chunk_size + 17)
          (("q", []) : String × List Nat))).length = 4
    ∧ (run_program_multiple_file argsC3 (fun _ => ⟨1, fun _ _ => true⟩) []
        (id : List Nat → List Nat)
        (List.replicate (3 * chunk_size + 17) ("q", []))).length = 17
    ∧ 17 ≠ 3 * chunk_size + 17 := by
  have hc17 : 17 ≤ chunk_size := by norm_num [chunk_size]
  refine ⟨?_, ?_, ?_, by norm_num [chunk_size]⟩
  · intro records
    rw [run_single_eq_map argsC3 ⟨1, fun _ _ => true⟩ [] id records (by decide),
      List.length_map]
  · rw [chunksOf_replicate_s6 ("q", ([] : List Nat)) chunk_size hc17]
    rfl
  · unfold run_program_multiple_file
    rw [chunksOf_replicate_s6 ("q", ([] : List Nat)) chunk_size hc17]
    simp only [List.map_cons, List.map_nil, List.getLastD_cons, List.getLastD_nil]
    rw [multi_chunk_lines_eq_map argsC3 (fun _ => ⟨1, fun _ _ => true⟩) [] id
      (List.replicate 17 ("q", [])) (by decide)]
    rw [List.length_map, List.length_replicate]

/-- C4 (amended): for a logical IBF split by bin partitioning into
`parts >= 2` parts of equal bin count — every bin owned by exactly one
part, which carries the unsplit filter's bits for it, all other parts
holding 0 for that bin — and a query file OF AT MOST ONE CHUNK
(`<= 10 * 2^20` records; larger files lose all but the last chunk to the
multi-part writer truncation, see the counterexample and C3), the
multi-part results file equals the single-part results file on the
unsplit IBF line for line, hence the (id, bin) pair sets coincide with
the identity bin-id renumbering. -/
theorem C4_multipart_equivalence {σ : Type} (a : SearchArguments) (M : IBF)
    (ibfOf : Nat → IBF) (owner : Nat → Nat) (precomp : List Nat)
    (extract : σ → List Nat) (records : List (String × σ))
    (ht : 1 ≤ a.threads) (hp : 2 ≤ a.parts)
    (hB : ∀ i, (ibfOf i).bins = M.bins)
    (how : ∀ b, b < M.bins → owner b < a.parts)
    (hmem : ∀ b, b < M.bins → ∀ h, (ibfOf (owner b)).mem h b = M.mem h b)
    (hdisj : ∀ b, b < M.bins → ∀ i, i < a.parts → i ≠ owner b → ∀ h,
      (ibfOf i).mem h b = false)
    (hfit : records.length ≤ chunk_size) :
    run_program_multiple_file a ibfOf precomp extract records =
      run_program_single_file a M precomp extract records
    ∧ run_multiple_pairs a ibfOf precomp extract records =
      run_single_pairs a M precomp extract records := by
  have hcounts : ∀ m : List Nat, multi_record_counts a ibfOf m = bulk_count M m :=
    multi_record_counts_eq_single a ibfOf M owner (by omega) hB how hmem hdisj
  cases records with
  | nil =>
    constructor
    · unfold run_program_multiple_file run_program_single_file
      rw [show chunksOf chunk_size ([] : List (String × σ)) = [] from by
        simp [chunksOf]]
      rfl
    · unfold run_multiple_pairs run_single_pairs
      rw [show chunksOf chunk_size ([] : List (String × σ)) = [] from by
        simp [chunksOf]]
      rfl
  | cons x xs =>
    have hchunks : chunksOf chunk_size (x :: xs) = [x :: xs] :=
      chunksOf_eq_single chunk_size chunk_size_ne_zero _ (by simp) hfit
    constructor
    · unfold run_program_multiple_file run_program_single_file
      rw [hchunks]
      simp only [List.map_cons, List.map_nil, List.getLastD_cons,
        List.getLastD_nil, List.flatMap_cons, List.flatMap_nil, List.append_nil]
      rw [multi_chunk_lines_eq_map a ibfOf precomp extract (x :: xs) ht,
        chunk_lines_eq_map a M precomp extract (x :: xs) ht]
      apply List.map_congr_left
      intro r _
      unfold record_line
      rw [hcounts (extract r.2)]
    · unfold run_multiple_pairs run_single_pairs
      rw [hchunks]
      simp only [List.map_cons, List.map_nil, List.getLastD_cons,
        List.getLastD_nil, List.flatMap_cons, List.flatMap_nil, List.append_nil]
      rw [multi_chunk_pairs_eq_flatMap a ibfOf precomp extract (x :: xs) ht,
        single_chunk_pairs_eq_flatMap a M precomp extract (x :: xs) ht]
      apply list_flatMap_congr
      intro r _
      unfold record_pairs
      rw [hcounts (extract r.2)]

def argsC4 : SearchArguments :=
  ⟨2, 2, 2, 1, 1, 0, false, 1, 2, false, false⟩

def ibfC4whole : IBF := ⟨2, fun _ _ => true⟩

def ibfC4part (i : Nat) : IBF := ⟨2, fun _ b => decide (b = i)⟩

theorem C4_multipart_equivalence_witness :
    run_program_multiple_file argsC4 ibfC4part []
      (id : List Nat → List Nat) [("q", [5])] =
      run_program_single_file argsC4 ibfC4whole []
        (id : List Nat → List Nat) [("q", [5])]
    ∧ run_multiple_pairs argsC4 ibfC4part []
      (id : List Nat → List Nat) [("q", [5])] =
      run_single_pairs argsC4 ibfC4whole []
        (id : List Nat → List Nat) [("q", [5])] :=
  C4_multipart_equivalence argsC4 ibfC4whole ibfC4part (fun b => b) [] id
    [("q", [5])] (by decide) (by decide)
    (fun _ => rfl)
    (fun b hb => hb)
    (fun b _ h => by simp [ibfC4part, ibfC4whole])
    (fun b _ i _ hne h => by
      simp only [ibfC4part]
      exact decide_eq_false (fun hbi => hne hbi.symm))
    (by norm_num [chunk_size])

theorem chunksOf_cons_replicate {α : Type} (c : Nat) (hc : c ≠ 0) (x y : α) :
    chunksOf c (x :: List.replicate c y) =
      [x :: List.replicate (c - 1) y, [y]] := by
  obtain ⟨c', rfl⟩ : ∃ c', c = c' + 1 := ⟨c - 1, by omega⟩
  rw [chunksOf_cons_eq _ hc _ (by simp), List.take_succ_cons,
    List.take_replicate, List.drop_succ_cons, List.drop_replicate,
    show min c' (c' + 1) = c' from by omega,
    show c' + 1 - c' = 1 from by omega, List.replicate_one]
  rw [chunksOf_cons_eq _ hc _ (by simp),
    show List.take (c' + 1) [y] = [y] from List.take_of_length_le (by simp),
    show List.drop (c' + 1) [y] = [] from List.drop_eq_nil_of_le (by simp)]
  simp only [chunksOf, Nat.add_one_sub_one]

/-- C4 counterexample: the claim quantifies over EVERY query file.  Take
the 2-bin IBF `ibfC4whole` split by bin partitioning into the two parts
`ibfC4part` (part `i` owns exactly bin `i`), and a query file of
`chunk_size + 1` records: a first record with id `a` followed by a full
chunk of records with id `b`.  Every record hits its bins (the computed
threshold is 0 under `argsC4`), so single-part output contains the pair
(a, 0); but the multi-part file was truncated at the second chunk and
contains no pair with id `a` at all — under any bin renumbering. -/
theorem C4_multipart_counterexample :
    ("a", 0) ∈ run_single_pairs argsC4 ibfC4whole []
      (id : List Nat → List Nat)
      (("a", [0]) :: List.replicate chunk_size ("b", []))
    ∧ ("a", 0) ∉ run_multiple_pairs argsC4 ibfC4part []
      (id : List Nat → List Nat)
      (("a", [0]) :: List.replicate chunk_size ("b", [])) := by
  constructor
  · rw [run_single_pairs_eq_flatMap argsC4 ibfC4whole [] id _ (by decide)]
    apply List.mem_flatMap.mpr
    exact ⟨("a", [0]), List.mem_cons_self _ _, by decide⟩
  · unfold run_multiple_pairs
    rw [chunksOf_cons_replicate chunk_size chunk_size_ne_zero ("a", [0])
      ("b", [])]
    simp only [List.map_cons, List.map_nil, List.getLastD_cons,
      List.getLastD_nil]
    decide
